import Mathlib

/-!
Shallow embedding of `src/PiBenchmark.py` and verification of its
specification claims.

The script computes Pi with Python's `decimal` module (IBM General Decimal
Arithmetic): every arithmetic operation rounds its exact result to the
current context precision, measured in significant decimal digits, with
round-half-even.  We model decimal values as exact rationals and each
operation as exact rational arithmetic followed by `roundSig`, rounding to
`P` significant digits half-even.  The process-wide context precision
(`decimal.getcontext().prec`) is modelled by threading an explicit natural
number state through the functions that touch it.  The unbounded
`while True` loop of `arctan` is modelled with fuel; exhausting the fuel
yields `none`, and termination theorems show the fuel is never exhausted
for the bases the program uses.  Division by an exact zero, a checked error
of the decimal module, also yields `none`.
-/

attribute [local semireducible] Rat.add Rat.sub Rat.mul Rat.inv

/-- Fuel-driven count of decimal digits: `ndAux fuel n` is the number of
digits of `n` provided `n ≤ fuel`. -/
def ndAux : ℕ → ℕ → ℕ
  | 0, _ => 1
  | fuel + 1, n => if n < 10 then 1 else ndAux fuel (n / 10) + 1

/-- Number of decimal digits of a natural number (1 for 0). -/
def numDigits (n : ℕ) : ℕ := ndAux n n

/-- Integer power of ten, as a rational, through an executable case split. -/
def tenPow : ℤ → ℚ
  | Int.ofNat n => ((10 ^ n : ℕ) : ℚ)
  | Int.negSucc n => (((10 ^ (n + 1) : ℕ) : ℚ))⁻¹

/-- Adjusted decimal exponent of a nonzero rational: the integer `e` with
`10 ^ e ≤ |q| < 10 ^ (e + 1)`, computed from the digit counts of the
numerator and denominator. -/
def decExp (q : ℚ) : ℤ :=
  let e1 : ℤ := (numDigits q.num.natAbs : ℤ) - (numDigits q.den : ℤ)
  if tenPow e1 ≤ |q| then e1 else e1 - 1

/-- Round a rational to the nearest integer, halves to the even neighbour,
written with the floor and the fractional part. -/
def rhePos (q : ℚ) : ℤ :=
  let f := ⌊q⌋
  if q - f < 1 / 2 then f
  else if 1 / 2 < q - f then f + 1
  else if f % 2 = 0 then f else f + 1

/-- Round half even to an integer, routed through `rhePos` on the absolute
value so that the rounding is symmetric under negation, exactly as the
decimal module's ROUND_HALF_EVEN rounds magnitudes. -/
def rhe (q : ℚ) : ℤ := if q < 0 then -rhePos (-q) else rhePos q

/-- Round a rational to `P` significant decimal digits, half-even: the
rounding the decimal module applies to every arithmetic result under a
context with `prec = P`. -/
def roundSig (P : ℕ) (q : ℚ) : ℚ :=
  if q = 0 then 0
  else
    let k : ℤ := decExp q - P + 1
    (rhe (q / tenPow k) : ℚ) * tenPow k

/-- Decimal addition at context precision `P`. -/
def addP (P : ℕ) (a b : ℚ) : ℚ := roundSig P (a + b)

/-- Decimal subtraction at context precision `P`. -/
def subP (P : ℕ) (a b : ℚ) : ℚ := roundSig P (a - b)

/-- Decimal multiplication at context precision `P`. -/
def mulP (P : ℕ) (a b : ℚ) : ℚ := roundSig P (a * b)

/-- Decimal division at context precision `P`; division by the exact zero
value is the decimal module's checked DivisionByZero error, modelled as
`none`. -/
def divP (P : ℕ) (a b : ℚ) : Option ℚ :=
  if b = 0 then none else some (roundSig P (a / b))

/-- Fuel bound supplied to the `while True` loop of `arctan`; the
termination lemmas prove the loop always exits strictly inside this bound
for the bases the program uses. -/
def arctanFuel (scale : ℕ) : ℕ := 3 * scale + 9

/-- The body of the `while True` loop of `arctan` (source lines 49-59),
one step per fuel unit: `divisor += 2`;
`term *= x_squared * Decimal(-1)`; `term_to_add = term / divisor`; exit
returning `result` once `abs(term_to_add) < Decimal('1e-scale')`, else
`result += term_to_add` and continue.  All operations round at the context
precision `P` set on entry to `arctan`; the loop body never writes the
context. -/
def arctanLoop (P : ℕ) (x_squared : ℚ) : ℕ → ℚ → ℚ → ℚ → Option ℚ
  | 0, _, _, _ => none
  | fuel + 1, result, term, divisor =>
    let divisor' := addP P divisor 2
    let term' := mulP P term (mulP P x_squared (-1))
    match divP P term' divisor' with
    | none => none
    | some term_to_add =>
      if |term_to_add| < tenPow (-(P : ℤ)) then some result
      else arctanLoop P x_squared fuel (addP P result term_to_add) term' divisor'

/-- Source `arctan(x_inv_str, scale)` (lines 36-61).  The extra argument
and the second component of the result are the process-wide context
precision before and after the call: line 40 sets it to `scale`, and every
operation of the body reads the context so set.  `x_inv` is the exact
decimal built from the digit string. -/
def arctan (x_inv scale : ℕ) (ctx0 : ℕ) : Option ℚ × ℕ :=
  let _ := ctx0
  let c := scale
  match divP c 1 (x_inv : ℚ) with
  | none => (none, c)
  | some x =>
    let x_squared := mulP c x x
    (arctanLoop c x_squared (arctanFuel scale) x x 1, c)

/-- Value computed by `arctan`, independent of the entry context. -/
def arctanRes (x_inv scale : ℕ) : Option ℚ := (arctan x_inv scale 0).1

/-- Source `calculate_pi(digits)` (lines 63-85) with the context precision
threaded: line 71 sets `scale = digits + 10`, line 74 sets the context to
`scale`, the two `arctan` calls each set it again, line 80 combines
`(term1 * 16) - (term2 * 4)` under the context the second call left
behind, line 83 sets the context to `digits` and line 85 returns `+pi`,
which rounds under that final context. -/
def calculate_pi (digits : ℕ) (ctx0 : ℕ) : Option ℚ × ℕ :=
  let _ := ctx0
  let scale := digits + 10
  let c1 := scale
  let r1 := arctan 5 scale c1
  let r2 := arctan 239 scale r1.2
  match r1.1, r2.1 with
  | some term1, some term2 =>
    let pi0 := subP r2.2 (mulP r2.2 term1 16) (mulP r2.2 term2 4)
    let c4 := digits
    (some (roundSig c4 pi0), c4)
  | _, _ => (none, r2.2)

/-- Value returned by `calculate_pi`, independent of the entry context. -/
def calculate_piVal (digits : ℕ) : Option ℚ := (calculate_pi digits 0).1

/-- Loop of the arctangent series exactly as the specification words it:
identical to `arctanLoop` except that the term update multiplies by the
negated square directly, `term = term * (-x_squared)`. -/
def arctanLoopSpec (P : ℕ) (x_squared : ℚ) : ℕ → ℚ → ℚ → ℚ → Option ℚ
  | 0, _, _, _ => none
  | fuel + 1, result, term, divisor =>
    let divisor' := addP P divisor 2
    let term' := mulP P term (-x_squared)
    match divP P term' divisor' with
    | none => none
    | some term_to_add =>
      if |term_to_add| < tenPow (-(P : ℤ)) then some result
      else arctanLoopSpec P x_squared fuel (addP P result term_to_add) term' divisor'

/-- The arctangent series evaluator as the specification words it for
claim C3: `x = 1/b`, `term = x`, `result = x`, `divisor = 1`, then the
loop of `arctanLoopSpec`. -/
def arctanSpec (b scale : ℕ) : Option ℚ :=
  match divP scale 1 (b : ℚ) with
  | none => none
  | some x => arctanLoopSpec scale (mulP scale x x) (arctanFuel scale) x x 1

/-- The Pi calculator as the specification words it for claim C2: working
precision `scale = digits + 10`, `t1 = arctan(1/5)` and `t2 = arctan(1/239)`
at precision `scale`, the combination `t1*16 - t2*4` still at precision
`scale`, and a final re-rounding to exactly `digits` significant digits. -/
def calculate_piSpec (digits : ℕ) : Option ℚ :=
  let scale := digits + 10
  match arctanRes 5 scale, arctanRes 239 scale with
  | some t1, some t2 =>
    some (roundSig digits (subP scale (mulP scale t1 16) (mulP scale t2 4)))
  | _, _ => none

/-- Variant of `arctanLoop` that also records the divisor value used by
every division the loop performs, to state where divisions happen. -/
def arctanLoopDivs (P : ℕ) (x_squared : ℚ) : ℕ → ℚ → ℚ → ℚ → Option (ℚ × List ℚ)
  | 0, _, _, _ => none
  | fuel + 1, result, term, divisor =>
    let divisor' := addP P divisor 2
    let term' := mulP P term (mulP P x_squared (-1))
    match divP P term' divisor' with
    | none => none
    | some term_to_add =>
      if |term_to_add| < tenPow (-(P : ℤ)) then some (result, [divisor'])
      else
        (arctanLoopDivs P x_squared fuel (addP P result term_to_add) term' divisor').map
          (fun rl => (rl.1, divisor' :: rl.2))

/-- The `arctan` computation together with the trace of series divisors. -/
def arctanDivs (b scale : ℕ) : Option (ℚ × List ℚ) :=
  match divP scale 1 (b : ℚ) with
  | none => none
  | some x => arctanLoopDivs scale (mulP scale x x) (arctanFuel scale) x x 1

/-- First `d` significant digits, as one integer, of a rational lying in
`[1, 10)` (every decimal value the claims about Pi compare lies there);
for the true constant Pi the same digits are `⌊Real.pi * 10 ^ (d - 1)⌋`. -/
def leadDigitsQ (d : ℕ) (q : ℚ) : ℤ := ⌊q * (10 : ℚ) ^ (d - 1)⌋

/-- Reference values of Pi correctly rounded half-even to `d` significant
digits, for the digit counts checked in claim C1; modelled from the spec's
trusted high-precision reference Pi = 3.14159265358979323846... -/
def piRef : ℕ → ℚ
  | 1 => 3
  | 2 => 31 / 10
  | 3 => 314 / 100
  | 4 => 3142 / 1000
  | 5 => 31416 / 10000
  | 6 => 314159 / 100000
  | 7 => 3141593 / 1000000
  | 8 => 31415927 / 10000000
  | 9 => 314159265 / 100000000
  | 10 => 3141592654 / 1000000000
  | 11 => 31415926536 / 10000000000
  | 12 => 314159265359 / 100000000000
  | _ => 0

/-- Warm-up repetition count, source line 116:
`max(1, int(reps_per_thread * 0.1))`.  The float product with the literal
`0.1` is modelled as the exact rational product, and `int()` on a
nonnegative value truncates, i.e. floors. -/
def warmUpReps (reps : ℕ) : ℕ := max 1 (Int.toNat ⌊(reps : ℚ) * (1 / 10)⌋)

/-- Warm-up repetition count as claim C7 words it, with `round` (Python's
round, half to even) in place of the source's truncating `int`. -/
def warmUpRepsClaim (reps : ℕ) : ℕ := max 1 (Int.toNat (rhe ((reps : ℚ) * (1 / 10))))

/-- The warm-up phase, source lines 117-118: `warmUpReps reps` sequential
evaluations of `calculate_pi digits`, results discarded. -/
def warmUpRun (digits reps : ℕ) : List (Option ℚ) :=
  (List.range (warmUpReps reps)).map (fun _ => calculate_piVal digits)

/-- Task list, source lines 123-127: exactly `reps * workers` tasks, each
the single integer `digits`. -/
def buildTasks (digits reps workers : ℕ) : List ℕ :=
  List.replicate (reps * workers) digits

/-- Execution of the task list by the pool, source line 136: one
`calculate_pi` evaluation per task. -/
def runTasks (tasks : List ℕ) : List (Option ℚ) := tasks.map calculate_piVal

/-- Reported total time, source line 142: elapsed seconds times 1000. -/
def totalTimeMs (sec : ℚ) : ℚ := sec * 1000

/-- Reported throughput, source line 144: total calculations divided by
elapsed seconds. -/
def calcsPerSec (total : ℕ) (sec : ℚ) : ℚ := (total : ℚ) / sec

/-- Value of a nonempty string of decimal digits. -/
def decCharsVal (cs : List Char) : Option ℕ :=
  if cs = [] then none
  else
    cs.foldl
      (fun acc c =>
        match acc with
        | none => none
        | some v => if c.isDigit then some (10 * v + (c.toNat - 48)) else none)
      (some 0)

/-- Python's `int(s)` on a command-line string, modelled for surrounding
spaces, an optional sign and ASCII digits (underscore separators and
non-ASCII digits are not modelled). -/
def pyParseInt (s : String) : Option ℤ :=
  let cs := ((s.toList.dropWhile (fun c => c = ' ')).reverse.dropWhile
    (fun c => c = ' ')).reverse
  match cs with
  | '-' :: rest => (decCharsVal rest).map (fun n => -(n : ℤ))
  | '+' :: rest => (decCharsVal rest).map (fun n => (n : ℤ))
  | _ => (decCharsVal cs).map (fun n => (n : ℤ))

/-- Observable outcome of one run of `main`: process exit code, number of
lines printed to the error stream, number of report lines printed to
standard output, and number of `calculate_pi` evaluations performed. -/
structure RunResult where
  exitCode : ℕ
  errLines : ℕ
  reportLines : ℕ
  piCalls : ℕ
  deriving DecidableEq

/-- Source `main()` (lines 89-150) restricted to its observable outcome:
with other than exactly three positional arguments it prints usage (two
lines) to the error stream and exits 1; with an argument that does not
parse as an integer, or parses non-positive, it prints the validation
error (two lines) to the error stream and exits 1; otherwise it runs the
warm-up and the `reps * workers` pool tasks and prints the one report
line. -/
def mainModel : List String → RunResult
  | [_prog, a1, a2, a3] =>
    match pyParseInt a1, pyParseInt a2, pyParseInt a3 with
    | some d, some r, some w =>
      if 0 < d ∧ 0 < r ∧ 0 < w then
        ⟨0, 0, 1, warmUpReps r.toNat + r.toNat * w.toNat⟩
      else ⟨1, 2, 0, 0⟩
    | _, _, _ => ⟨1, 2, 0, 0⟩
  | _ => ⟨1, 2, 0, 0⟩

theorem ndAux_pos (fuel n : ℕ) : 1 ≤ ndAux fuel n := by
  cases fuel with
  | zero => simp [ndAux]
  | succ f => rw [ndAux]; split <;> omega

theorem ndAux_bounds :
    ∀ fuel n, 1 ≤ n → n ≤ fuel →
      10 ^ (ndAux fuel n - 1) ≤ n ∧ n < 10 ^ ndAux fuel n := by
  intro fuel
  induction fuel with
  | zero => intro n h1 h2; omega
  | succ f ih =>
    intro n h1 h2
    rw [ndAux]
    by_cases h10 : n < 10
    · rw [if_pos h10]
      constructor
      · simpa using h1
      · simpa using h10
    · rw [if_neg h10]
      have hd1 : 1 ≤ n / 10 := by omega
      have hd2 : n / 10 ≤ f := by omega
      obtain ⟨hlo, hhi⟩ := ih (n / 10) hd1 hd2
      have hdpos : 1 ≤ ndAux f (n / 10) := ndAux_pos f (n / 10)
      set d := ndAux f (n / 10) with hd
      have hsplit : 10 ^ d = 10 ^ (d - 1) * 10 := by
        conv_lhs => rw [show d = (d - 1) + 1 by omega]
        rw [pow_succ]
      constructor
      · have hmul : 10 ^ (d - 1) * 10 ≤ n / 10 * 10 := Nat.mul_le_mul_right 10 hlo
        have hdivmul : n / 10 * 10 ≤ n := Nat.div_mul_le_self n 10
        calc 10 ^ (d + 1 - 1) = 10 ^ (d - 1) * 10 := by
              rw [show d + 1 - 1 = d by omega, hsplit]
          _ ≤ n := le_trans hmul hdivmul
      · have hstep : n < (n / 10 + 1) * 10 := by omega
        have hmul : (n / 10 + 1) * 10 ≤ 10 ^ d * 10 := by
          have : n / 10 + 1 ≤ 10 ^ d := hhi
          exact Nat.mul_le_mul_right 10 this
        calc n < (n / 10 + 1) * 10 := hstep
          _ ≤ 10 ^ d * 10 := hmul
          _ = 10 ^ (d + 1) := (pow_succ 10 d).symm

theorem numDigits_le {n : ℕ} (h : 1 ≤ n) : 10 ^ (numDigits n - 1) ≤ n :=
  (ndAux_bounds n n h le_rfl).1

theorem lt_pow_numDigits {n : ℕ} (h : 1 ≤ n) : n < 10 ^ numDigits n :=
  (ndAux_bounds n n h le_rfl).2

theorem numDigits_pos (n : ℕ) : 1 ≤ numDigits n := ndAux_pos n n

theorem tenPow_eq_zpow (z : ℤ) : tenPow z = (10 : ℚ) ^ z := by
  cases z with
  | ofNat n =>
    rw [tenPow, Int.ofNat_eq_natCast, zpow_natCast]
    push_cast
    ring
  | negSucc n =>
    rw [tenPow, zpow_negSucc]
    push_cast
    ring

theorem tenPow_pos (z : ℤ) : 0 < tenPow z := by
  rw [tenPow_eq_zpow]
  exact zpow_pos (by norm_num) z

theorem tenPow_ne_zero (z : ℤ) : tenPow z ≠ 0 := ne_of_gt (tenPow_pos z)

theorem tenPow_mono {a b : ℤ} (h : a ≤ b) : tenPow a ≤ tenPow b := by
  rw [tenPow_eq_zpow, tenPow_eq_zpow]
  exact zpow_le_zpow_right₀ (by norm_num) h

theorem tenPow_add (a b : ℤ) : tenPow (a + b) = tenPow a * tenPow b := by
  rw [tenPow_eq_zpow, tenPow_eq_zpow, tenPow_eq_zpow,
    zpow_add₀ (by norm_num : (10 : ℚ) ≠ 0)]

theorem tenPow_natCast (n : ℕ) : tenPow (n : ℤ) = (10 : ℚ) ^ n := by
  rw [tenPow_eq_zpow, zpow_natCast]

theorem decExp_spec {q : ℚ} (hq : q ≠ 0) :
    tenPow (decExp q) ≤ |q| ∧ |q| < tenPow (decExp q + 1) := by
  have hdenN : 0 < q.den := q.pos
  have hden : 0 < (q.den : ℚ) := by exact_mod_cast hdenN
  have hnum : q.num ≠ 0 := Rat.num_ne_zero.mpr hq
  have ha1 : 1 ≤ q.num.natAbs := Int.natAbs_pos.mpr hnum
  have hb1 : 1 ≤ q.den := hdenN
  set a := q.num.natAbs with ha
  set b := q.den with hb
  have habs : |q| = (a : ℚ) / (b : ℚ) := by
    have h1 : |q| = |(q.num : ℚ)| / ((q.den : ℕ) : ℚ) := by
      conv_lhs => rw [← Rat.num_div_den q]
      rw [abs_div, abs_of_pos hden]
    rw [h1, ha, Int.cast_natAbs, Int.cast_abs, hb]
  have haLo : ((10 : ℚ)) ^ (numDigits a - 1) ≤ (a : ℚ) := by
    exact_mod_cast numDigits_le ha1
  have haHi : (a : ℚ) < (10 : ℚ) ^ numDigits a := by
    exact_mod_cast lt_pow_numDigits ha1
  have hbLo : ((10 : ℚ)) ^ (numDigits b - 1) ≤ (b : ℚ) := by
    exact_mod_cast numDigits_le hb1
  have hbHi : (b : ℚ) < (10 : ℚ) ^ numDigits b := by
    exact_mod_cast lt_pow_numDigits hb1
  have hah : 1 ≤ numDigits a := numDigits_pos a
  have hbh : 1 ≤ numDigits b := numDigits_pos b
  have hupper : |q| < tenPow ((numDigits a : ℤ) - (numDigits b : ℤ) + 1) := by
    have hsub : (numDigits a : ℤ) - (numDigits b : ℤ) + 1
        = (numDigits a : ℤ) - ((numDigits b - 1 : ℕ) : ℤ) := by
      push_cast [Nat.cast_sub hbh]
      ring
    rw [habs, hsub, tenPow_eq_zpow,
      zpow_sub₀ (by norm_num : (10 : ℚ) ≠ 0), zpow_natCast, zpow_natCast]
    rw [div_lt_div_iff hden (by positivity)]
    have h1 : (a : ℚ) * (10 : ℚ) ^ (numDigits b - 1)
        < (10 : ℚ) ^ numDigits a * (10 : ℚ) ^ (numDigits b - 1) := by
      apply mul_lt_mul_of_pos_right haHi (by positivity)
    have h2 : (10 : ℚ) ^ numDigits a * (10 : ℚ) ^ (numDigits b - 1)
        ≤ (10 : ℚ) ^ numDigits a * (b : ℚ) := by
      apply mul_le_mul_of_nonneg_left hbLo (by positivity)
    linarith
  have hlower : tenPow ((numDigits a : ℤ) - (numDigits b : ℤ) - 1) ≤ |q| := by
    have hsub : (numDigits a : ℤ) - (numDigits b : ℤ) - 1
        = ((numDigits a - 1 : ℕ) : ℤ) - ((numDigits b : ℕ) : ℤ) := by
      push_cast [Nat.cast_sub hah]
      ring
    rw [habs, hsub, tenPow_eq_zpow,
      zpow_sub₀ (by norm_num : (10 : ℚ) ≠ 0), zpow_natCast, zpow_natCast]
    rw [div_le_div_iff (by positivity) hden]
    have h1 : (10 : ℚ) ^ (numDigits a - 1) * (b : ℚ) ≤ (a : ℚ) * (b : ℚ) := by
      apply mul_le_mul_of_nonneg_right haLo (by positivity)
    have h2 : (a : ℚ) * (b : ℚ) ≤ (a : ℚ) * (10 : ℚ) ^ numDigits b := by
      apply mul_le_mul_of_nonneg_left hbHi.le (by positivity)
    linarith
  simp only [decExp]
  split_ifs with hcase
  · exact ⟨hcase, hupper⟩
  · constructor
    · exact hlower
    · have := lt_of_not_le hcase
      simpa using this

theorem rhePos_err (q : ℚ) : |(rhePos q : ℚ) - q| ≤ 1 / 2 := by
  have h1 := Int.floor_le q
  have h2 := Int.lt_floor_add_one q
  simp only [rhePos]
  split_ifs with ha hb hc
  all_goals rw [abs_le]; push_cast; constructor <;> linarith

theorem rhe_err (q : ℚ) : |(rhe q : ℚ) - q| ≤ 1 / 2 := by
  rw [rhe]
  split_ifs with h
  · have hmain := rhePos_err (-q)
    have hflip : ((-rhePos (-q) : ℤ) : ℚ) - q = -((rhePos (-q) : ℚ) - -q) := by
      push_cast
      ring
    rw [hflip, abs_neg]
    exact hmain
  · exact rhePos_err q

theorem rhePos_intCast (n : ℤ) : rhePos (n : ℚ) = n := by
  simp only [rhePos, Int.floor_intCast, sub_self]
  norm_num

theorem rhe_intCast (n : ℤ) : rhe (n : ℚ) = n := by
  rw [rhe]
  split_ifs with h
  · rw [← Int.cast_neg, rhePos_intCast]
    ring
  · exact rhePos_intCast n

theorem rhePos_zero : rhePos 0 = 0 := by
  have := rhePos_intCast 0
  simpa using this

theorem rhe_neg (q : ℚ) : rhe (-q) = -rhe q := by
  rcases lt_trichotomy q 0 with h | h | h
  · rw [rhe, rhe, if_pos h, if_neg (by linarith : ¬-q < 0), neg_neg]
  · subst h
    rw [neg_zero, rhe, if_neg (by norm_num), rhePos_zero, neg_zero]
  · rw [rhe, rhe, if_pos (by linarith : -q < 0), if_neg (by linarith : ¬q < 0), neg_neg]

theorem roundSig_zero (P : ℕ) : roundSig P 0 = 0 := by simp [roundSig]

theorem roundSig_err {P : ℕ} (hP : 1 ≤ P) (q : ℚ) :
    |roundSig P q - q| ≤ |q| / 2 := by
  rcases eq_or_ne q 0 with rfl | hq
  · simp [roundSig]
  · rw [roundSig, if_neg hq]
    set k : ℤ := decExp q - P + 1 with hk
    have hkpos := tenPow_pos k
    have hfactor : (rhe (q / tenPow k) : ℚ) * tenPow k - q
        = ((rhe (q / tenPow k) : ℚ) - q / tenPow k) * tenPow k := by
      field_simp
    rw [hfactor, abs_mul, abs_of_pos hkpos]
    have h1 : |(rhe (q / tenPow k) : ℚ) - q / tenPow k| ≤ 1 / 2 := rhe_err _
    have h2 : tenPow k ≤ |q| := by
      calc tenPow k ≤ tenPow (decExp q) := tenPow_mono (by omega)
        _ ≤ |q| := (decExp_spec hq).1
    calc |(rhe (q / tenPow k) : ℚ) - q / tenPow k| * tenPow k
        ≤ 1 / 2 * tenPow k := mul_le_mul_of_nonneg_right h1 hkpos.le
      _ ≤ 1 / 2 * |q| := mul_le_mul_of_nonneg_left h2 (by norm_num)
      _ = |q| / 2 := by ring

theorem abs_roundSig_le {P : ℕ} (hP : 1 ≤ P) (q : ℚ) :
    |roundSig P q| ≤ 3 / 2 * |q| := by
  have h := roundSig_err hP q
  have h2 := abs_sub_abs_le_abs_sub (roundSig P q) q
  linarith [abs_nonneg q]

theorem roundSig_ge_half {P : ℕ} (hP : 1 ≤ P) {q : ℚ} (hq : 0 < q) :
    q / 2 ≤ roundSig P q := by
  have h := roundSig_err hP q
  rw [abs_of_pos hq] at h
  have h2 := (abs_le.mp h).1
  linarith

theorem decExp_neg (q : ℚ) : decExp (-q) = decExp q := by
  simp only [decExp, abs_neg, Rat.neg_num, Rat.neg_den, Int.natAbs_neg]

theorem roundSig_neg (P : ℕ) (q : ℚ) : roundSig P (-q) = -roundSig P q := by
  rcases eq_or_ne q 0 with rfl | hq
  · simp [roundSig]
  · simp only [roundSig, if_neg hq, if_neg (neg_ne_zero.mpr hq), decExp_neg]
    rw [neg_div, rhe_neg]
    push_cast
    ring

theorem tenPow_toNat {z : ℤ} (hz : 0 ≤ z) : tenPow z = (10 : ℚ) ^ z.toNat := by
  rw [tenPow_eq_zpow, ← zpow_natCast, Int.toNat_of_nonneg hz]

theorem roundSig_fix {P : ℕ} (hP : 1 ≤ P) {m k : ℤ} (hm : |m| < 10 ^ P)
    {q : ℚ} (hq : q = (m : ℚ) * tenPow k) : roundSig P q = q := by
  rcases eq_or_ne m 0 with rfl | hm0
  · rw [hq]
    simp [roundSig]
  · have hq0 : q ≠ 0 := by
      rw [hq]
      exact mul_ne_zero (Int.cast_ne_zero.mpr hm0) (tenPow_ne_zero k)
    rw [roundSig, if_neg hq0]
    set e := decExp q with he
    set k2 : ℤ := e - P + 1 with hk2
    have habs : |q| = (|m| : ℚ) * tenPow k := by
      rw [hq, abs_mul, abs_of_pos (tenPow_pos k)]
    have hmcast : (|m| : ℚ) < ((10 : ℚ)) ^ P := by
      have : ((|m| : ℤ) : ℚ) < ((10 ^ P : ℤ) : ℚ) := by exact_mod_cast hm
      push_cast at this
      exact this
    have h1 : |q| < tenPow ((P : ℤ) + k) := by
      rw [habs, tenPow_add]
      apply mul_lt_mul_of_pos_right ?_ (tenPow_pos k)
      rw [tenPow_natCast]
      exact hmcast
    have h2 : tenPow e ≤ |q| := (decExp_spec hq0).1
    have he_lt : e < (P : ℤ) + k := by
      by_contra hcon
      push_neg at hcon
      have := tenPow_mono hcon
      linarith
    have hk2le : k2 ≤ k := by omega
    have hksplit : tenPow k = (10 : ℚ) ^ (k - k2).toNat * tenPow k2 := by
      rw [← tenPow_toNat (by omega : (0 : ℤ) ≤ k - k2), ← tenPow_add]
      congr 1
      ring
    have hsplit : q / tenPow k2 = ((m * 10 ^ (k - k2).toNat : ℤ) : ℚ) := by
      rw [hq, hksplit]
      rw [show ((m : ℚ)) * ((10 : ℚ) ^ (k - k2).toNat * tenPow k2)
          = (m : ℚ) * (10 : ℚ) ^ (k - k2).toNat * tenPow k2 by ring]
      rw [mul_div_cancel_right₀ _ (tenPow_ne_zero k2)]
      push_cast
      ring
    show ((rhe (q / tenPow k2) : ℤ) : ℚ) * tenPow k2 = q
    rw [hsplit, rhe_intCast, ← hsplit, div_mul_cancel₀ _ (tenPow_ne_zero k2)]

theorem roundSig_repr {P : ℕ} (hP : 1 ≤ P) (q : ℚ) :
    ∃ m k : ℤ, roundSig P q = (m : ℚ) * tenPow k ∧ |m| < 10 ^ P := by
  rcases eq_or_ne q 0 with rfl | hq
  · refine ⟨0, 0, by simp [roundSig], by positivity⟩
  · rw [roundSig, if_neg hq]
    set k2 : ℤ := decExp q - P + 1 with hk2
    set m := rhe (q / tenPow k2) with hm
    have herr : |(m : ℚ) - q / tenPow k2| ≤ 1 / 2 := rhe_err _
    have habs : |q / tenPow k2| < (10 : ℚ) ^ P := by
      rw [abs_div, abs_of_pos (tenPow_pos k2), div_lt_iff (tenPow_pos k2)]
      calc |q| < tenPow (decExp q + 1) := (decExp_spec hq).2
        _ = (10 : ℚ) ^ P * tenPow k2 := by
            rw [← tenPow_natCast P, ← tenPow_add]
            congr 1
            omega
    have htri : |(m : ℚ)| ≤ |q / tenPow k2| + |(m : ℚ) - q / tenPow k2| := by
      have h := abs_sub_abs_le_abs_sub (m : ℚ) (q / tenPow k2)
      linarith
    have hmQ : |(m : ℚ)| < (10 : ℚ) ^ P + 1 / 2 := by linarith
    have hmZ : |m| ≤ 10 ^ P := by
      by_contra hcon
      push_neg at hcon
      have hsucc : (10 : ℤ) ^ P + 1 ≤ |m| := hcon
      have hcast : ((10 : ℤ) ^ P : ℚ) + 1 ≤ |(m : ℚ)| := by
        rw [← Int.cast_abs]
        exact_mod_cast hsucc
      push_cast at hcast
      linarith
    have honelt : (1 : ℤ) < 10 ^ P := by
      have h10 : (10 : ℤ) ^ 1 ≤ 10 ^ P := pow_le_pow_right (by norm_num) hP
      norm_num at h10
      omega
    rcases lt_or_eq_of_le hmZ with hlt | heq
    · exact ⟨m, k2, rfl, hlt⟩
    · rcases (abs_eq (by positivity : (0 : ℤ) ≤ 10 ^ P)).mp heq with hpos | hneg
      · refine ⟨1, (P : ℤ) + k2, ?_, by simpa using honelt⟩
        have heq2 : (m : ℚ) * tenPow k2 = ((1 : ℤ) : ℚ) * tenPow ((P : ℤ) + k2) := by
          have hsplitP : tenPow ((P : ℤ) + k2) = tenPow (P : ℤ) * tenPow k2 :=
            tenPow_add _ _
          rw [hsplitP, tenPow_natCast, hpos]
          push_cast
          ring
        exact heq2
      · refine ⟨-1, (P : ℤ) + k2, ?_, by simpa using honelt⟩
        have heq2 : (m : ℚ) * tenPow k2 = ((-1 : ℤ) : ℚ) * tenPow ((P : ℤ) + k2) := by
          have hsplitP : tenPow ((P : ℤ) + k2) = tenPow (P : ℤ) * tenPow k2 :=
            tenPow_add _ _
          rw [hsplitP, tenPow_natCast, hneg]
          push_cast
          ring
        exact heq2

theorem roundSig_roundSig {P : ℕ} (hP : 1 ≤ P) (q : ℚ) :
    roundSig P (roundSig P q) = roundSig P q := by
  obtain ⟨m, k, hv, hm⟩ := roundSig_repr hP q
  exact roundSig_fix hP hm hv

theorem roundSig_int {P : ℕ} (hP : 1 ≤ P) {n : ℤ} (hn : |n| < 10 ^ P) :
    roundSig P (n : ℚ) = (n : ℚ) := by
  apply roundSig_fix hP hn
  have h0 : tenPow 0 = 1 := by
    rw [tenPow_eq_zpow]
    norm_num
  rw [h0, mul_one]

theorem mulP_roundSig_negOne {P : ℕ} (hP : 1 ≤ P) (q : ℚ) :
    mulP P (roundSig P q) (-1) = -roundSig P q := by
  rw [mulP, mul_neg_one, roundSig_neg, roundSig_roundSig hP]

theorem divP_of_ne_zero {P : ℕ} {b : ℚ} (hb : b ≠ 0) (a : ℚ) :
    divP P a b = some (roundSig P (a / b)) := by
  rw [divP, if_neg hb]

theorem arctanLoopSpec_eq {P : ℕ} {x_squared : ℚ}
    (hx : mulP P x_squared (-1) = -x_squared) :
    ∀ fuel result term divisor,
      arctanLoopSpec P x_squared fuel result term divisor
        = arctanLoop P x_squared fuel result term divisor := by
  intro fuel
  induction fuel with
  | zero => intro r t d; rfl
  | succ f ih =>
    intro r t d
    simp only [arctanLoopSpec, arctanLoop, hx]
    cases hdiv : divP P (mulP P t (-x_squared)) (addP P d 2) with
    | none => rfl
    | some term_to_add =>
      by_cases hc : |term_to_add| < tenPow (-(P : ℤ))
      · simp [hc]
      · simp only [hc, if_false]
        exact ih (addP P r term_to_add) (mulP P t (-x_squared)) (addP P d 2)

theorem arctanSpec_eq {b scale : ℕ} (hs : 1 ≤ scale) :
    arctanSpec b scale = arctanRes b scale := by
  rw [arctanSpec, arctanRes, arctan]
  cases hdiv : divP scale 1 (b : ℚ) with
  | none => rfl
  | some x =>
    simp only []
    have hx : mulP scale (mulP scale x x) (-1) = -mulP scale x x :=
      mulP_roundSig_negOne hs (x * x)
    exact arctanLoopSpec_eq hx (arctanFuel scale) x x 1

theorem abs_mulP_le {P : ℕ} (hP : 1 ≤ P) (a b : ℚ) :
    |mulP P a b| ≤ 3 / 2 * (|a| * |b|) := by
  have h := abs_roundSig_le hP (a * b)
  rw [abs_mul] at h
  rw [mulP]
  exact h

theorem addP_two_ge_one {P : ℕ} (hP : 1 ≤ P) {d : ℚ} (hd : 1 ≤ d) :
    1 ≤ addP P d 2 := by
  have hpos : (0 : ℚ) < d + 2 := by linarith
  have h := roundSig_ge_half hP hpos
  rw [addP]
  linarith

theorem arctanLoop_isSome {P : ℕ} (hP : 1 ≤ P) {x_squared : ℚ}
    (hneg : |mulP P x_squared (-1)| ≤ 81 / 400) :
    ∀ (fuel : ℕ) (result term divisor : ℚ), 1 ≤ divisor →
      |term| < 2 * tenPow (-(P : ℤ)) * 3 ^ fuel →
      (arctanLoop P x_squared (fuel + 1) result term divisor).isSome := by
  have hX := tenPow_pos (-(P : ℤ))
  intro fuel
  induction fuel with
  | zero =>
    intro r t d hd ht
    have hd1ge : 1 ≤ addP P d 2 := addP_two_ge_one hP hd
    have hdne : addP P d 2 ≠ 0 := by linarith
    have hterm1 : |mulP P t (mulP P x_squared (-1))| ≤ 243 / 800 * |t| := by
      have h := abs_mulP_le hP t (mulP P x_squared (-1))
      have h2 := mul_le_mul_of_nonneg_left hneg (abs_nonneg t)
      linarith
    have hquot : |roundSig P (mulP P t (mulP P x_squared (-1)) / addP P d 2)|
        ≤ 3 / 2 * (243 / 800 * |t|) := by
      have h1 := abs_roundSig_le hP (mulP P t (mulP P x_squared (-1)) / addP P d 2)
      rw [abs_div, abs_of_pos (by linarith : (0 : ℚ) < addP P d 2)] at h1
      have h2 : |mulP P t (mulP P x_squared (-1))| / addP P d 2
          ≤ |mulP P t (mulP P x_squared (-1))| :=
        div_le_self (abs_nonneg _) hd1ge
      have h3 : (3 : ℚ) / 2 * (|mulP P t (mulP P x_squared (-1))| / addP P d 2)
          ≤ 3 / 2 * |mulP P t (mulP P x_squared (-1))| := by linarith
      linarith
    have hcond : |roundSig P (mulP P t (mulP P x_squared (-1)) / addP P d 2)|
        < tenPow (-(P : ℤ)) := by
      have hpow : (3 : ℚ) ^ (0 : ℕ) = 1 := pow_zero 3
      rw [hpow, mul_one] at ht
      linarith
    simp only [arctanLoop, divP_of_ne_zero hdne]
    simp [hcond]
  | succ f ih =>
    intro r t d hd ht
    have hd1ge : 1 ≤ addP P d 2 := addP_two_ge_one hP hd
    have hdne : addP P d 2 ≠ 0 := by linarith
    have hterm1 : |mulP P t (mulP P x_squared (-1))| ≤ 243 / 800 * |t| := by
      have h := abs_mulP_le hP t (mulP P x_squared (-1))
      have h2 := mul_le_mul_of_nonneg_left hneg (abs_nonneg t)
      linarith
    have h3f : (0 : ℚ) < 3 ^ f := by positivity
    have hstep : (3 : ℚ) ^ (f + 1) = 3 * 3 ^ f := by ring
    have hnext : |mulP P t (mulP P x_squared (-1))| < 2 * tenPow (-(P : ℤ)) * 3 ^ f := by
      rw [hstep] at ht
      nlinarith [abs_nonneg t]
    by_cases hcond : |roundSig P (mulP P t (mulP P x_squared (-1)) / addP P d 2)|
        < tenPow (-(P : ℤ))
    · simp only [arctanLoop, divP_of_ne_zero hdne]
      simp [hcond]
    · simp only [arctanLoop, divP_of_ne_zero hdne]
      simp only [Option.isSome]
      simp [hcond]
      exact ih (addP P r (roundSig P (mulP P t (mulP P x_squared (-1)) / addP P d 2)))
        (mulP P t (mulP P x_squared (-1))) (addP P d 2) hd1ge hnext

theorem arctan_isSome {b scale : ℕ} (hs : 1 ≤ scale) (hb : 5 ≤ b) :
    (arctanRes b scale).isSome := by
  have hbQ : (5 : ℚ) ≤ (b : ℚ) := by exact_mod_cast hb
  have hbpos : (0 : ℚ) < (b : ℚ) := by linarith
  have hbne : (b : ℚ) ≠ 0 := ne_of_gt hbpos
  rw [arctanRes]
  simp only [arctan, divP_of_ne_zero hbne]
  set x := roundSig scale ((1 : ℚ) / (b : ℚ)) with hx
  have hxb : |x| ≤ 3 / 10 := by
    have h1 := abs_roundSig_le hs ((1 : ℚ) / (b : ℚ))
    have h2 : |(1 : ℚ) / (b : ℚ)| = 1 / (b : ℚ) := abs_of_pos (by positivity)
    have h3 : (1 : ℚ) / (b : ℚ) ≤ 1 / 5 :=
      one_div_le_one_div_of_le (by norm_num) hbQ
    rw [h2] at h1
    linarith
  have hxsq : |mulP scale x x| ≤ 27 / 200 := by
    have h := abs_mulP_le hs x x
    nlinarith [abs_nonneg x]
  have hnegf : |mulP scale (mulP scale x x) (-1)| ≤ 81 / 400 := by
    have h := abs_mulP_le hs (mulP scale x x) (-1)
    have habs1 : |(-1 : ℚ)| = 1 := by norm_num
    rw [habs1, mul_one] at h
    linarith
  have hfuel : arctanFuel scale = 3 * scale + 8 + 1 := rfl
  rw [hfuel]
  apply arctanLoop_isSome hs hnegf (3 * scale + 8) x x 1 le_rfl
  have hkey : (3 : ℚ) / 10 < 2 * tenPow (-(scale : ℤ)) * 3 ^ (3 * scale + 8) := by
    have hts : tenPow (-(scale : ℤ)) = ((10 : ℚ) ^ scale)⁻¹ := by
      rw [tenPow_eq_zpow, zpow_neg, zpow_natCast]
    have hsplit3 : (3 : ℚ) ^ (3 * scale + 8) = 6561 * 27 ^ scale := by
      rw [pow_add, pow_mul]
      norm_num
      ring
    have h27 : (10 : ℚ) ^ scale ≤ 27 ^ scale :=
      pow_le_pow_left (by norm_num) (by norm_num) scale
    have hp1 : (0 : ℚ) < 10 ^ scale := by positivity
    have hdiv1 : 1 ≤ (27 : ℚ) ^ scale / 10 ^ scale := (one_le_div hp1).mpr h27
    rw [hts, hsplit3]
    have hval : 2 * ((10 : ℚ) ^ scale)⁻¹ * (6561 * 27 ^ scale)
        = 13122 * ((27 : ℚ) ^ scale / 10 ^ scale) := by
      field_simp
      ring
    rw [hval]
    nlinarith
  exact lt_of_le_of_lt hxb hkey

theorem arctan_fst_ctx (b s c : ℕ) : (arctan b s c).1 = arctanRes b s := rfl

theorem arctan_snd (b s c : ℕ) : (arctan b s c).2 = s := by
  simp only [arctan]
  cases h : divP s 1 (b : ℚ) <;> rfl

theorem calculate_pi_cases (digits ctx0 : ℕ) :
    calculate_pi digits ctx0 =
      match arctanRes 5 (digits + 10), arctanRes 239 (digits + 10) with
      | some t1, some t2 =>
        (some (roundSig digits (subP (digits + 10) (mulP (digits + 10) t1 16)
          (mulP (digits + 10) t2 4))), digits)
      | _, _ => (none, digits + 10) := rfl

theorem calculate_pi_pair (digits ctx0 : ℕ) :
    ∃ v : ℚ, calculate_pi digits ctx0 = (some v, digits) := by
  have h5 : (arctanRes 5 (digits + 10)).isSome := arctan_isSome (by omega) (by norm_num)
  have h239 : (arctanRes 239 (digits + 10)).isSome := arctan_isSome (by omega) (by norm_num)
  obtain ⟨t1, ht1⟩ := Option.isSome_iff_exists.mp h5
  obtain ⟨t2, ht2⟩ := Option.isSome_iff_exists.mp h239
  refine ⟨roundSig digits
    (subP (digits + 10) (mulP (digits + 10) t1 16) (mulP (digits + 10) t2 4)), ?_⟩
  rw [calculate_pi_cases, ht1, ht2]

theorem calculate_piVal_isSome (digits : ℕ) : (calculate_piVal digits).isSome := by
  obtain ⟨v, hv⟩ := calculate_pi_pair digits 0
  rw [calculate_piVal, hv]
  rfl

theorem calculate_pi_snd (digits c : ℕ) : (calculate_pi digits c).2 = digits := by
  obtain ⟨v, hv⟩ := calculate_pi_pair digits c
  rw [hv]

theorem roundSig_natCast {P : ℕ} (hP : 1 ≤ P) {n : ℕ} (hn : n < 10 ^ P) :
    roundSig P (n : ℚ) = (n : ℚ) := by
  have h1 : |(n : ℤ)| < 10 ^ P := by
    rw [Int.abs_natCast]
    exact_mod_cast hn
  have h2 := roundSig_int hP h1
  rw [Int.cast_natCast] at h2
  exact h2

theorem arctanLoopDivs_fst (P : ℕ) (x_squared : ℚ) :
    ∀ fuel result term divisor,
      (arctanLoopDivs P x_squared fuel result term divisor).map Prod.fst
        = arctanLoop P x_squared fuel result term divisor := by
  intro fuel
  induction fuel with
  | zero => intro r t d; rfl
  | succ f ih =>
    intro r t d
    simp only [arctanLoopDivs, arctanLoop]
    cases hdiv : divP P (mulP P t (mulP P x_squared (-1))) (addP P d 2) with
    | none => rfl
    | some tta =>
      by_cases hc : |tta| < tenPow (-(P : ℤ))
      · simp [hc]
      · simp only [hc, if_false, Option.map_map]
        have hcomp : (Prod.fst ∘ fun rl : ℚ × List ℚ => (rl.1, addP P d 2 :: rl.2))
            = Prod.fst := rfl
        rw [hcomp]
        exact ih (addP P r tta) (mulP P t (mulP P x_squared (-1))) (addP P d 2)

theorem arctanLoopDivs_shape {P : ℕ} (hP : 1 ≤ P) (x_squared : ℚ) :
    ∀ (fuel n : ℕ) (result term res : ℚ) (L : List ℚ),
      2 * (n + fuel) + 5 < 10 ^ P →
      arctanLoopDivs P x_squared fuel result term ((2 * n + 1 : ℕ) : ℚ) = some (res, L) →
      ∀ q ∈ L, ∃ m : ℕ, q = (m : ℚ) ∧ Odd m ∧ 3 ≤ m := by
  intro fuel
  induction fuel with
  | zero =>
    intro n r t res L hbound h
    simp [arctanLoopDivs] at h
  | succ f ih =>
    intro n r t res L hbound h
    have hsmall : 2 * n + 3 < 10 ^ P := by
      have hstep : 2 * n + 3 ≤ 2 * (n + (f + 1)) + 5 := by omega
      omega
    have hdiv' : addP P ((2 * n + 1 : ℕ) : ℚ) 2 = ((2 * n + 3 : ℕ) : ℚ) := by
      rw [addP]
      have hcast : ((2 * n + 1 : ℕ) : ℚ) + 2 = ((2 * n + 3 : ℕ) : ℚ) := by
        push_cast
        ring
      rw [hcast]
      exact roundSig_natCast hP hsmall
    simp only [arctanLoopDivs, hdiv'] at h
    cases hdd : divP P (mulP P t (mulP P x_squared (-1))) ((2 * n + 3 : ℕ) : ℚ) with
    | none => rw [hdd] at h; simp at h
    | some tta =>
      rw [hdd] at h
      by_cases hc : |tta| < tenPow (-(P : ℤ))
      · simp only [hc, if_true] at h
        simp only [Option.some.injEq, Prod.mk.injEq] at h
        obtain ⟨hres, hL⟩ := h
        intro q hq
        rw [← hL] at hq
        simp only [List.mem_singleton] at hq
        subst hq
        exact ⟨2 * n + 3, rfl, ⟨n + 1, by ring⟩, by omega⟩
      · simp only [hc, if_false] at h
        obtain ⟨⟨res', L'⟩, hrec, heq⟩ := Option.map_eq_some'.mp h
        simp only [Prod.mk.injEq] at heq
        obtain ⟨hres, hL⟩ := heq
        intro q hq
        rw [← hL] at hq
        rcases List.mem_cons.mp hq with hqhead | hqtail
        · subst hqhead
          exact ⟨2 * n + 3, rfl, ⟨n + 1, by ring⟩, by omega⟩
        · have hn1 : (2 * n + 3 : ℕ) = 2 * (n + 1) + 1 := by omega
          rw [hn1] at hrec
          have hEq : 2 * ((n + 1) + f) + 5 = 2 * (n + (f + 1)) + 5 := by ring
          have hbound' : 2 * ((n + 1) + f) + 5 < 10 ^ P := by
            rw [hEq]
            exact hbound
          exact ih (n + 1) (addP P r tta) (mulP P t (mulP P x_squared (-1))) res' L'
            hbound' hrec q hqtail

theorem six_mul_lt_pow {s : ℕ} (hs : 2 ≤ s) : 6 * s + 23 < 10 ^ s := by
  induction s, hs using Nat.le_induction with
  | base => norm_num
  | succ k hk ih =>
    have h1 : 6 * (k + 1) + 23 < 10 ^ k + 6 := by
      calc 6 * (k + 1) + 23 = (6 * k + 23) + 6 := by ring
        _ < 10 ^ k + 6 := Nat.add_lt_add_right ih 6
    have hp : 100 ≤ 10 ^ k := by
      calc 100 = 10 ^ 2 := by norm_num
        _ ≤ 10 ^ k := Nat.pow_le_pow_right (by norm_num) hk
    have h2 : 10 ^ k + 6 ≤ 10 ^ (k + 1) := by
      have h6 : 6 ≤ 9 * 10 ^ k := by
        have h9 : 9 * 100 ≤ 9 * 10 ^ k := Nat.mul_le_mul_left 9 hp
        omega
      calc 10 ^ k + 6 ≤ 10 ^ k + 9 * 10 ^ k := Nat.add_le_add_left h6 _
        _ = 10 * 10 ^ k := by ring
        _ = 10 ^ (k + 1) := by rw [pow_succ]; ring
    exact lt_of_lt_of_le h1 h2

theorem arctanRes_cases (b scale : ℕ) :
    arctanRes b scale = match divP scale 1 (b : ℚ) with
      | none => none
      | some x => arctanLoop scale (mulP scale x x) (arctanFuel scale) x x 1 := by
  rw [arctanRes]
  cases h : divP scale 1 (b : ℚ) with
  | none => simp only [arctan, h]
  | some x => simp only [arctan, h]

theorem arctanDivs_spec {b scale : ℕ} (hs2 : 2 ≤ scale) (hb : 5 ≤ b) :
    ∃ r L, arctanDivs b scale = some (r, L) ∧
      ∀ q ∈ L, ∃ m : ℕ, q = (m : ℚ) ∧ Odd m ∧ 3 ≤ m := by
  have hs : 1 ≤ scale := by omega
  have hsome := arctan_isSome hs hb
  rw [arctanRes_cases] at hsome
  cases hdiv : divP scale 1 (b : ℚ) with
  | none => rw [hdiv] at hsome; simp at hsome
  | some x =>
    rw [hdiv] at hsome
    have hsome' : (arctanLoop scale (mulP scale x x) (arctanFuel scale) x x 1).isSome :=
      hsome
    obtain ⟨res, hres⟩ := Option.isSome_iff_exists.mp hsome'
    have hproj := arctanLoopDivs_fst scale (mulP scale x x) (arctanFuel scale) x x 1
    rw [hres] at hproj
    obtain ⟨⟨r0, L0⟩, hd0, hfst⟩ := Option.map_eq_some'.mp hproj
    refine ⟨r0, L0, ?_, ?_⟩
    · rw [arctanDivs, hdiv]
      exact hd0
    · have hone : ((1 : ℚ)) = ((2 * 0 + 1 : ℕ) : ℚ) := by norm_num
      rw [hone] at hd0
      have hbound : 2 * (0 + arctanFuel scale) + 5 < 10 ^ scale := by
        have hb2 := six_mul_lt_pow hs2
        calc 2 * (0 + arctanFuel scale) + 5 = 6 * scale + 23 := by rw [arctanFuel]; ring
          _ < 10 ^ scale := hb2
      exact arctanLoopDivs_shape hs (mulP scale x x) (arctanFuel scale) 0 x x r0 L0
        hbound hd0

theorem warmUpReps_eq (reps : ℕ) : warmUpReps reps = max 1 (reps / 10) := by
  rw [warmUpReps]
  congr 1
  have h1 : (reps : ℚ) * (1 / 10) = (reps : ℚ) / ((10 : ℕ) : ℚ) := by
    push_cast
    ring
  rw [h1, Int.floor_toNat, Nat.floor_div_nat, Nat.floor_natCast]

theorem calculate_piSpec_cases (digits : ℕ) :
    calculate_piSpec digits =
      match arctanRes 5 (digits + 10), arctanRes 239 (digits + 10) with
      | some t1, some t2 =>
        some (roundSig digits (subP (digits + 10) (mulP (digits + 10) t1 16)
          (mulP (digits + 10) t2 4)))
      | _, _ => none := rfl

/-- Claim C2: for every `digits`, `calculate_pi(digits)` follows the
two-phase-precision Machin algorithm: it uses internal working precision
`scale = digits + 10`, computes `t1 = arctan(1/5)` and `t2 = arctan(1/239)`
at precision `scale`, combines them as `pi = t1*16 - t2*4` still at
precision `scale`, and finally re-rounds `pi` to exactly `digits`
significant digits before returning it — i.e. the source function equals
the composition `calculate_piSpec` written from the specification's words,
whatever context precision was in effect at the call. -/
theorem claim_C2 (digits ctx0 : ℕ) :
    (calculate_pi digits ctx0).1 = calculate_piSpec digits := by
  rw [calculate_pi_cases, calculate_piSpec_cases]
  cases h1 : arctanRes 5 (digits + 10) <;> cases h2 : arctanRes 239 (digits + 10) <;> rfl

/-- Claim C3: for every base `b` and every `scale ≥ 1`, `arctan(b, scale)`
implements exactly the restructured alternating Taylor series as the
specification words it: with `x = 1/b` it initializes `term = x`,
`result = x`, `divisor = 1`; each iteration sets `divisor += 2`,
`term = term * (-x^2)`, `termToAdd = term / divisor`; if
`|termToAdd| < 10^(-scale)` it stops without adding that term, otherwise it
adds `termToAdd` to `result` and continues, returning the accumulated
result: the evaluator `arctanSpec` built from that wording coincides with
the source `arctan`. -/
theorem claim_C3 (b scale : ℕ) (hs : 1 ≤ scale) :
    arctanSpec b scale = arctanRes b scale :=
  arctanSpec_eq hs

/-- Witness for claim C3 at the concrete point `b = 5`, `scale = 3`. -/
theorem claim_C3_witness : arctanSpec 5 3 = arctanRes 5 3 :=
  claim_C3 5 3 (by norm_num)

/-- Claim C4: for every base `b` in `{5, 239}` and every `scale ≥ 1`, the
magnitude-based loop in `arctan(b, scale)` terminates: the fuel-modelled
loop returns a value (`isSome`) rather than running forever. -/
theorem claim_C4 (scale : ℕ) (hs : 1 ≤ scale) :
    (arctanRes 5 scale).isSome ∧ (arctanRes 239 scale).isSome :=
  ⟨arctan_isSome hs (by norm_num), arctan_isSome hs (by norm_num)⟩

/-- Witness for claim C4 at the concrete scale 1. -/
theorem claim_C4_witness : (arctanRes 5 1).isSome ∧ (arctanRes 239 1).isSome :=
  claim_C4 1 le_rfl

/-- Counterexample to claim C5: `arctan` writes the process-wide decimal
context precision: entering `arctan(5, 3)` with context precision 7 leaves
the context at 3, not 7, so precision is not purely an explicit
parameter or a scoped context owned by the call. -/
theorem claim_C5_counterexample : (arctan 5 3 7).2 ≠ 7 := by decide

/-- Claim C5 amended: precision is supplied as an explicit argument and the
computed value depends only on that argument — never on the ambient
context — but the call applies its precision by mutating the shared global
context (`getcontext().prec = scale`, then `= digits`), rather than through
a scoped context that is restored on exit. -/
theorem claim_C5_amended (b scale ctx0 digits ctx1 : ℕ) :
    (arctan b scale ctx0).1 = arctanRes b scale ∧
    (arctan b scale ctx0).2 = scale ∧
    (calculate_pi digits ctx1).1 = calculate_piVal digits :=
  ⟨rfl, arctan_snd b scale ctx0, rfl⟩

/-- Claim C10: calling `arctan(b, scale)` leaves the process-wide decimal
context precision set to `scale` on return, and calling
`calculate_pi(digits)` leaves it set to `digits` on return, whatever the
precision was before the call: both functions mutate the shared global
precision context as a side effect. -/
theorem claim_C10 (b scale ctx0 digits ctx1 : ℕ) :
    (arctan b scale ctx0).2 = scale ∧ (calculate_pi digits ctx1).2 = digits :=
  ⟨arctan_snd b scale ctx0, calculate_pi_snd digits ctx1⟩

/-- Claim C6: for every valid parameter triple `digits > 0`,
`repsPerThread > 0`, `numWorkers > 0`, the harness builds and executes
exactly `repsPerThread * numWorkers` identical Pi-computation tasks, each
parameterized only by `digits`, and reports
`totalTimeMs = elapsed_seconds * 1000` and
`calcsPerSec = (repsPerThread * numWorkers) / elapsed_seconds`, both
strictly positive for a positive elapsed time. -/
theorem claim_C6 (digits reps workers : ℕ) (sec : ℚ)
    (hd : 0 < digits) (hr : 0 < reps) (hw : 0 < workers) (hs : 0 < sec) :
    (buildTasks digits reps workers).length = reps * workers ∧
    (∀ t ∈ buildTasks digits reps workers, t = digits) ∧
    (runTasks (buildTasks digits reps workers)).length = reps * workers ∧
    totalTimeMs sec = sec * 1000 ∧ 0 < totalTimeMs sec ∧
    calcsPerSec (reps * workers) sec = ((reps * workers : ℕ) : ℚ) / sec ∧
    0 < calcsPerSec (reps * workers) sec := by
  have hrw : 0 < reps * workers := Nat.mul_pos hr hw
  refine ⟨?_, ?_, ?_, rfl, ?_, rfl, ?_⟩
  · rw [buildTasks, List.length_replicate]
  · intro t ht
    exact List.eq_of_mem_replicate ht
  · rw [runTasks, List.length_map, buildTasks, List.length_replicate]
  · rw [totalTimeMs]
    positivity
  · rw [calcsPerSec]
    have hc : (0 : ℚ) < ((reps * workers : ℕ) : ℚ) := by exact_mod_cast hrw
    positivity

/-- Witness for claim C6 at the test point of the spec,
`digits = 100`, `repsPerThread = 5`, `numWorkers = 4`, with a positive
elapsed time of half a second: 20 tasks and positive report fields. -/
theorem claim_C6_witness :
    (buildTasks 100 5 4).length = 20 ∧ (runTasks (buildTasks 100 5 4)).length = 20 ∧
    0 < totalTimeMs (1 / 2) ∧ 0 < calcsPerSec 20 (1 / 2) := by
  obtain ⟨h1, h2, h3, h4, h5, h6, h7⟩ :=
    claim_C6 100 5 4 (1 / 2) (by norm_num) (by norm_num) (by norm_num) (by norm_num)
  exact ⟨h1, h3, h5, h7⟩

/-- Counterexample to claim C7: the source truncates where the claim
rounds: at `repsPerThread = 15` the source computes
`max(1, int(1.5)) = 1` while the claim's formula gives
`max(1, round(1.5)) = 2`. -/
theorem claim_C7_counterexample :
    warmUpReps 15 = 1 ∧ warmUpRepsClaim 15 = 2 ∧ warmUpReps 15 ≠ warmUpRepsClaim 15 := by
  refine ⟨by decide, by decide, by decide⟩

/-- Claim C7 amended: for every `repsPerThread > 0` the warm-up phase
computes `warmupReps = max(1, trunc(repsPerThread * 0.1))` — truncation,
not rounding — and runs `calculate_pi(digits)` sequentially exactly that
many times before the timed region; the count is always at least 1, and
for `repsPerThread = 1` it is `max(1, trunc(0.1)) = 1`, never zero. -/
theorem claim_C7_amended (digits reps : ℕ) (hr : 0 < reps) :
    warmUpReps reps = max 1 (reps / 10) ∧ 1 ≤ warmUpReps reps ∧
    (warmUpRun digits reps).length = max 1 (reps / 10) ∧ warmUpReps 1 = 1 := by
  have h := warmUpReps_eq reps
  refine ⟨h, ?_, ?_, by decide⟩
  · rw [h]
    exact le_max_left 1 _
  · rw [warmUpRun, List.length_map, List.length_range, h]

/-- Witness for the amended claim C7 at `digits = 100`, `repsPerThread = 1`. -/
theorem claim_C7_witness :
    warmUpReps 1 = max 1 (1 / 10) ∧ 1 ≤ warmUpReps 1 ∧
    (warmUpRun 100 1).length = max 1 (1 / 10) ∧ warmUpReps 1 = 1 :=
  claim_C7_amended 100 1 (by norm_num)

/-- Claim C9: division by the exact zero value is a defined, checked error
condition of the decimal engine (`divP` with zero divisor is the error
`none`), and for every `digits ≥ 1` that error is unreachable inside
`calculate_pi`: the computation completes (`isSome`), and for both fixed
bases 5 and 239 the traced series divisors are all odd numbers `≥ 3`
(each of the form `2k + 3`), so no division in the arctan loop ever
divides by zero. -/
theorem claim_C9 (digits : ℕ) (hd : 1 ≤ digits) :
    (∀ a : ℚ, divP (digits + 10) a 0 = none) ∧
    (calculate_piVal digits).isSome ∧
    (∀ b : ℕ, b = 5 ∨ b = 239 →
      ∃ r L, arctanDivs b (digits + 10) = some (r, L) ∧
        ∀ q ∈ L, ∃ m : ℕ, q = (m : ℚ) ∧ Odd m ∧ 3 ≤ m) := by
  refine ⟨fun a => by rw [divP]; simp, calculate_piVal_isSome digits, ?_⟩
  intro b hb
  have hs2 : 2 ≤ digits + 10 := by omega
  rcases hb with rfl | rfl
  · exact arctanDivs_spec hs2 (by norm_num)
  · exact arctanDivs_spec hs2 (by norm_num)

/-- Witness for claim C9 at `digits = 1`: the checked zero-divisor error at
precision 11, and a completed computation. -/
theorem claim_C9_witness :
    divP 11 (3 : ℚ) 0 = none ∧ (calculate_piVal 1).isSome :=
  ⟨(claim_C9 1 le_rfl).1 3, (claim_C9 1 le_rfl).2.1⟩

/-- Claim C8: if the command line does not have exactly three positional
arguments (four entries counting the program name), or any argument fails
to parse as an integer, or any parsed value is non-positive, the program
prints to the error stream and exits with a non-zero status, printing no
report line and running no Pi computation. -/
theorem claim_C8 (argv : List String)
    (h : argv.length ≠ 4 ∨
      ∃ s ∈ argv.tail, pyParseInt s = none ∨ ∃ v, pyParseInt s = some v ∧ v ≤ 0) :
    (mainModel argv).exitCode ≠ 0 ∧ 0 < (mainModel argv).errLines ∧
      (mainModel argv).reportLines = 0 ∧ (mainModel argv).piCalls = 0 := by
  rcases argv with _ | ⟨a0, _ | ⟨a1, _ | ⟨a2, _ | ⟨a3, _ | ⟨a4, rest⟩⟩⟩⟩⟩
  · decide
  · have hmain : mainModel [a0] = ⟨1, 2, 0, 0⟩ := by simp only [mainModel]
    rw [hmain]
    decide
  · have hmain : mainModel [a0, a1] = ⟨1, 2, 0, 0⟩ := by simp only [mainModel]
    rw [hmain]
    decide
  · have hmain : mainModel [a0, a1, a2] = ⟨1, 2, 0, 0⟩ := by simp only [mainModel]
    rw [hmain]
    decide
  · rcases h with hlen | ⟨s, hmem, hbad⟩
    · simp at hlen
    · have hmem' : s = a1 ∨ s = a2 ∨ s = a3 := by simpa using hmem
      cases hp1 : pyParseInt a1 with
      | none =>
        have hmain : mainModel [a0, a1, a2, a3] = ⟨1, 2, 0, 0⟩ := by
          simp only [mainModel, hp1]
        rw [hmain]
        decide
      | some d =>
        cases hp2 : pyParseInt a2 with
        | none =>
          have hmain : mainModel [a0, a1, a2, a3] = ⟨1, 2, 0, 0⟩ := by
            simp only [mainModel, hp1, hp2]
          rw [hmain]
          decide
        | some r =>
          cases hp3 : pyParseInt a3 with
          | none =>
            have hmain : mainModel [a0, a1, a2, a3] = ⟨1, 2, 0, 0⟩ := by
              simp only [mainModel, hp1, hp2, hp3]
            rw [hmain]
            decide
          | some w =>
            have hnonpos : d ≤ 0 ∨ r ≤ 0 ∨ w ≤ 0 := by
              rcases hmem' with rfl | rfl | rfl
              · rcases hbad with hnone | ⟨v, hv, hvle⟩
                · rw [hp1] at hnone; simp at hnone
                · rw [hp1] at hv
                  injection hv with hdv
                  left
                  omega
              · rcases hbad with hnone | ⟨v, hv, hvle⟩
                · rw [hp2] at hnone; simp at hnone
                · rw [hp2] at hv
                  injection hv with hdv
                  right; left
                  omega
              · rcases hbad with hnone | ⟨v, hv, hvle⟩
                · rw [hp3] at hnone; simp at hnone
                · rw [hp3] at hv
                  injection hv with hdv
                  right; right
                  omega
            have hcond : ¬(0 < d ∧ 0 < r ∧ 0 < w) := by
              rintro ⟨c1, c2, c3⟩
              rcases hnonpos with h' | h' | h' <;> omega
            have hmain : mainModel [a0, a1, a2, a3] = ⟨1, 2, 0, 0⟩ := by
              simp only [mainModel, hp1, hp2, hp3]
              rw [if_neg hcond]
            rw [hmain]
            decide
  · have hmain : mainModel (a0 :: a1 :: a2 :: a3 :: a4 :: rest) = ⟨1, 2, 0, 0⟩ := by
      simp only [mainModel]
    rw [hmain]
    decide

/-- Witness for claim C8 at the concrete invalid command line with
`digits = 0`. -/
theorem claim_C8_witness :
    (mainModel ["pi_benchmark.py", "0", "5", "4"]).exitCode ≠ 0 ∧
    0 < (mainModel ["pi_benchmark.py", "0", "5", "4"]).errLines ∧
    (mainModel ["pi_benchmark.py", "0", "5", "4"]).reportLines = 0 ∧
    (mainModel ["pi_benchmark.py", "0", "5", "4"]).piCalls = 0 :=
  claim_C8 ["pi_benchmark.py", "0", "5", "4"]
    (Or.inr ⟨"0", by decide, Or.inr ⟨0, by decide, by decide⟩⟩)

set_option maxRecDepth 8000 in
/-- Counterexample to claim C1: at `digits = 4` the returned value is
3.142, whose four significant digits 3142 differ from the first four
significant digits 3141 of the true constant Pi — final rounding rounds
the last digit up, so the digit strings are not equal. -/
theorem claim_C1_counterexample :
    calculate_piVal 4 = some (1571 / 500) ∧
    leadDigitsQ 4 (1571 / 500) = 3142 ∧
    ⌊Real.pi * 10 ^ 3⌋ = 3141 := by
  refine ⟨by decide, by decide, ?_⟩
  have h1 := Real.pi_gt_d4
  have h2 := Real.pi_lt_d4
  rw [Int.floor_eq_iff]
  constructor
  · push_cast
    nlinarith
  · push_cast
    nlinarith

set_option maxRecDepth 8000 in
/-- Claim C1 amended: for `digits` between 1 and 12, `calculate_pi(digits)`
returns the reference value of Pi correctly rounded half-even to `digits`
significant digits — within half a unit in the last significant digit of
the true constant Pi (`5 / 10 ^ digits`, the ulp at the leading digit
being `10 ^ (1 - digits)`) — its digit string therefore may differ from
the truncated digit string of Pi in the last place, as at `digits = 4`;
at `digits = 10` the result is 3.141592654, the spec's own rounded
example. -/
theorem claim_C1_amended (d : ℕ) (h1 : 1 ≤ d) (h12 : d ≤ 12) :
    calculate_piVal d = some (piRef d) ∧
    |((piRef d : ℚ) : ℝ) - Real.pi| ≤ 5 / 10 ^ d := by
  have hg := Real.pi_gt_d20
  have hl := Real.pi_lt_d20
  interval_cases d <;>
    exact ⟨by decide, by rw [abs_le]; push_cast [piRef]; constructor <;> linarith⟩

/-- Witness for the amended claim C1 at `digits = 10`, the spec's example. -/
theorem claim_C1_amended_witness :
    calculate_piVal 10 = some (piRef 10) ∧
    |((piRef 10 : ℚ) : ℝ) - Real.pi| ≤ 5 / 10 ^ 10 :=
  claim_C1_amended 10 (by norm_num) (by norm_num)
